import Mathlib

/-!
Verification of the cascade-lattice navigation core (`cascade/tui.py`).

This file is a shallow embedding of the navigation engine of the
repository: the module-graph data model (`ModuleNode`, the
`MODULE_GRAPH` dict literal), the breadcrumb state machine
(`NavState` with its four operations `push`, `pop`, `jump_to`,
`reset`), the related-panel derivation
(`RelatedModulesPanel._rebuild_buttons`) and the document-panel
selection in `ExplorerScreen._update_view`.  Python lists become Lean
`List`s, `Dict[str, ModuleNode]` becomes `String → Option ModuleNode`
(the `.get` view), and Python truthiness of an optional string is
spelled out (`some ""` is falsy).
-/

namespace Cascade

/-- Embeds the `ModuleNode` dataclass (tui.py).  Field names follow the
source; `doc_dummy` / `doc_scientist` are what the spec calls
`doc_novice` / `doc_expert`. -/
structure ModuleNode where
  name : String
  full_path : String
  doc_dummy : String
  doc_scientist : String
  exports : List String
  imports_from : List String
  imported_by : List String
  children : List String
  parent : Option String
  category : String
  icon : String
deriving DecidableEq

/-- The `.get` view of a `Dict[str, ModuleNode]`: `MODULE_GRAPH.get(key)`. -/
abbrev GraphStore := String → Option ModuleNode

/-- Embeds the `NavState` dataclass: the breadcrumb `path`. -/
structure NavState where
  path : List String
deriving DecidableEq

namespace NavState

/-- The default `NavState()` value: `path = ["cascade_lattice"]`. -/
def init : NavState := ⟨["cascade_lattice"]⟩

/-- `NavState.current`: `path[-1] if path else "cascade_lattice"`. -/
def current (s : NavState) : String :=
  (s.path.getLast?).getD "cascade_lattice"

/-- `NavState.push`: append only if not already present anywhere in `path`. -/
def push (s : NavState) (m : String) : NavState :=
  if m ∈ s.path then s else ⟨s.path ++ [m]⟩

/-- `NavState.pop`: if `len(path) > 1`, remove and return the last
element; else return `None` and leave the state unchanged. -/
def pop (s : NavState) : Option String × NavState :=
  if 1 < s.path.length then (s.path.getLast?, ⟨s.path.dropLast⟩)
  else (none, s)

/-- `NavState.jump_to`: if `module` is in `path`, trim to
`path[:index(module)+1]`; otherwise append it. -/
def jump_to (s : NavState) (m : String) : NavState :=
  if m ∈ s.path then ⟨s.path.take (s.path.indexOf m + 1)⟩
  else ⟨s.path ++ [m]⟩

/-- `NavState.reset`: `path = ["cascade_lattice"]`. -/
def reset (_ : NavState) : NavState := ⟨["cascade_lattice"]⟩

end NavState

/-- A user-driven sequence of `jump_to` calls, applied left to right. -/
def jumpSeq (js : List String) (s : NavState) : NavState :=
  js.foldl NavState.jump_to s

/-- One of the four mutators of `NavState`, as fired by the UI. -/
inductive NavOp where
  | pushOp (m : String)
  | popOp
  | jumpOp (m : String)
  | resetOp
deriving DecidableEq

/-- Apply one operation; `pop`'s return value is discarded, only the
state matters. -/
def NavOp.apply (o : NavOp) (s : NavState) : NavState :=
  match o with
  | .pushOp m => s.push m
  | .popOp => (s.pop).2
  | .jumpOp m => s.jump_to m
  | .resetOp => s.reset

/-- Run a finite interleaving of the four operations from a state. -/
def runOps (ops : List NavOp) (s : NavState) : NavState :=
  ops.foldl (fun t o => o.apply t) s

/-! ### Related panel (`RelatedModulesPanel._rebuild_buttons`)

The panel mounts one button per related module; we record the mounted
buttons as a list of (category, module key) pairs, in mount order.
`added_keys` is exactly the set of keys of the accumulator. -/

/-- The four button categories of `_rebuild_buttons`, in source order. -/
inductive Slot where
  | parentSlot
  | childSlot
  | importsFromSlot
  | importedBySlot
deriving DecidableEq

/-- One step of `_rebuild_buttons`: mount a button for `key` in slot
`sl` unless `key` is already in `added_keys` or `MODULE_GRAPH.get(key)`
is absent. -/
def addIf (g : GraphStore) (sl : Slot) (key : String)
    (acc : List (Slot × String)) : List (Slot × String) :=
  if key ∈ acc.map Prod.snd then acc
  else
    match g key with
    | some _ => acc ++ [(sl, key)]
    | none => acc

/-- The parent button of `_rebuild_buttons` (Python truthiness: a
`None` or empty-string parent is skipped; `added_keys` is empty at this
point). -/
def parentStage (g : GraphStore) (node : ModuleNode) : List (Slot × String) :=
  match node.parent with
  | some p => if p = "" then [] else addIf g Slot.parentSlot p []
  | none => []

/-- The `_rebuild_buttons` derivation for a resolved node: parent
button, then children, then the first three `imports_from`, then the
first three `imported_by`, with the running `added_keys` set. -/
def rebuildFor (g : GraphStore) (node : ModuleNode) : List (Slot × String) :=
  let a1 := parentStage g node
  let a2 := node.children.foldl (fun acc c => addIf g Slot.childSlot c acc) a1
  let a3 := (node.imports_from.take 3).foldl
    (fun acc c => addIf g Slot.importsFromSlot c acc) a2
  let a4 := (node.imported_by.take 3).foldl
    (fun acc c => addIf g Slot.importedBySlot c acc) a3
  a4

/-- The full `_rebuild_buttons` derivation for the current `key`.  A
missing current node yields the empty panel (the code returns after
clearing the container). -/
def relatedList (g : GraphStore) (key : String) : List (Slot × String) :=
  match g key with
  | none => []
  | some node => rebuildFor g node

/-! ### Document panel (`ExplorerScreen._update_view`)

`_update_view` looks up the current module; if it is absent the method
returns at once, leaving every panel (in particular the Markdown
document panel) with its previous content.  Otherwise the document
panel is set to `doc_scientist` when `scientist_mode` is on, else
`doc_dummy`. -/
def updateDocView (g : GraphStore) (currentModule : String)
    (scientist_mode : Bool) (prevDoc : String) : String :=
  match g currentModule with
  | none => prevDoc
  | some node => if scientist_mode then node.doc_scientist else node.doc_dummy

/-! ### Graph Store construction (the `MODULE_GRAPH` dict literal)

`MODULE_GRAPH` is a plain Python dict literal.  Building a dict from a
sequence of key/value pairs inserts them left to right; a duplicate key
silently overwrites the earlier entry, and nothing inspects `children`,
`parent` or the presence of the root.  There is no `raise`, `assert` or
validation of any kind anywhere in the module. -/

/-- One dict insertion: the semantics of listing `k: v` in the literal. -/
def dictInsert (f : String → Option ModuleNode) (kv : String × ModuleNode) :
    String → Option ModuleNode :=
  fun q => if q = kv.1 then some kv.2 else f q

/-- The dict literal built from its entries, left to right. -/
def dictOfList (l : List (String × ModuleNode)) : String → Option ModuleNode :=
  l.foldl dictInsert (fun _ => none)

/-! ### Concrete stores used as witnesses and counterexamples -/

/-- A plain resolvable node with no relations. -/
def qNode : ModuleNode :=
  ⟨"q", "q", "", "", [], [], [], [], none, "core", "📦"⟩

/-- A node that is both the parent of `m` and listed in `m`'s
`imports_from`. -/
def pNode : ModuleNode :=
  ⟨"P", "P", "", "", [], [], [], ["m"], none, "core", "📦"⟩

/-- A node whose parent `P` also occurs in its `imports_from`. -/
def mNode : ModuleNode :=
  ⟨"m", "m", "", "", [], ["P", "q"], [], [], some "P", "core", "📦"⟩

/-- Store for the parent-duplication scenario. -/
def gP : GraphStore := fun k =>
  if k = "m" then some mNode
  else if k = "P" then some pNode
  else if k = "q" then some qNode else none

/-- A resolvable node listed fourth in `hubNode.imports_from`. -/
def goodNode : ModuleNode :=
  ⟨"good", "good", "", "", [], [], [], [], none, "core", "📦"⟩

/-- A node whose first three `imports_from` entries are unresolvable
and whose fourth is resolvable. -/
def hubNode : ModuleNode :=
  ⟨"hub", "hub", "", "", [], ["ghost1", "ghost2", "ghost3", "good"], [],
    [], none, "core", "📦"⟩

/-- Store in which only `hub` and `good` resolve. -/
def gC : GraphStore := fun k =>
  if k = "hub" then some hubNode
  else if k = "good" then some goodNode else none

/-- A node carrying the marker document texts. -/
def dNode : ModuleNode :=
  ⟨"d", "d", "dummy text", "scientist text", [], [], [], [], none,
    "core", "📦"⟩

/-- Store for the document-panel scenario: only `d` resolves. -/
def gD : GraphStore := fun k => if k = "d" then some dNode else none

/-- First definition bound to the duplicated key `dup`. -/
def dupNode1 : ModuleNode :=
  ⟨"dup one", "dup", "", "", [], [], [], ["cyc"], some "cyc", "core", "📦"⟩

/-- Second definition bound to the duplicated key `dup`. -/
def dupNode2 : ModuleNode :=
  ⟨"dup two", "dup", "", "", [], [], [], [], none, "core", "📦"⟩

/-- A node making the containment relation cyclic with `dup`. -/
def cycNode : ModuleNode :=
  ⟨"cyc", "cyc", "", "", [], [], [], ["dup"], some "dup", "core", "📦"⟩

/-- A malformed static definition: the key `dup` occurs twice, `dup`
and `cyc` form a `children`/`parent` cycle, and the declared root
`cascade_lattice` is missing. -/
def badDef : List (String × ModuleNode) :=
  [("dup", dupNode1), ("cyc", cycNode), ("dup", dupNode2)]

/-! ### Helper lemmas about `jump_to` -/

theorem take_indexOf_decomp {α : Type} [DecidableEq α] (l : List α) (m : α)
    (h : m ∈ l) :
    l.take (l.indexOf m + 1) = l.take (l.indexOf m) ++ [m] := by
  have hlt : l.indexOf m < l.length := List.indexOf_lt_length.mpr h
  have hget : l.get ⟨l.indexOf m, hlt⟩ = m := List.indexOf_get hlt
  rw [List.take_succ]
  have : l[l.indexOf m]? = some m := by
    rw [List.getElem?_eq_getElem hlt]
    simp
  rw [this]
  rfl

theorem indexOf_take_self {α : Type} [DecidableEq α] :
    ∀ (l : List α) (x : α) (n : Nat), x ∈ l.take n →
      (l.take n).indexOf x = l.indexOf x := by
  intro l
  induction l with
  | nil => intro x n hx; simp at hx
  | cons a t ih =>
      intro x n hx
      cases n with
      | zero => simp at hx
      | succ k =>
          simp only [List.take_succ_cons] at hx ⊢
          by_cases hax : a = x
          · subst hax
            simp [List.indexOf_cons_self]
          · have hxt : x ∈ t.take k := by
              rcases List.mem_cons.mp hx with h1 | h1
              · exact absurd h1.symm hax
              · exact h1
            rw [List.indexOf_cons_ne _ hax, List.indexOf_cons_ne _ hax,
              ih x k hxt]

theorem jump_to_mem_path (s : NavState) (x : String) (h : x ∈ s.path) :
    (s.jump_to x).path = s.path.take (s.path.indexOf x + 1) := by
  simp [NavState.jump_to, h]

theorem jump_to_not_mem_path (s : NavState) (x : String) (h : x ∉ s.path) :
    (s.jump_to x).path = s.path ++ [x] := by
  simp [NavState.jump_to, h]

theorem jump_to_getLast (s : NavState) (x : String) :
    ((s.jump_to x).path).getLast? = some x := by
  by_cases h : x ∈ s.path
  · rw [jump_to_mem_path s x h, take_indexOf_decomp s.path x h]
    exact List.getLast?_concat _
  · rw [jump_to_not_mem_path s x h]
    exact List.getLast?_concat _

theorem jump_to_mem_length (s : NavState) (x : String) (h : x ∈ s.path) :
    (s.jump_to x).path.length = s.path.indexOf x + 1 := by
  have hlt : s.path.indexOf x < s.path.length := List.indexOf_lt_length.mpr h
  rw [jump_to_mem_path s x h, List.length_take]
  omega

/-- **C1.** `jump_to(x)` has exactly two behaviours: if `x` occurs in
`path` (at first position `i = path.indexOf x`), the path is truncated
to exactly its first `i+1` elements, so it has length `i+1` and ends in
`x`; if `x` does not occur, the path is extended by exactly the one
element `x`, so it is one longer and ends in `x`. -/
theorem jump_to_truncate_or_extend (s : NavState) (x : String) :
    (x ∈ s.path →
      (s.jump_to x).path = s.path.take (s.path.indexOf x + 1) ∧
      (s.jump_to x).path.length = s.path.indexOf x + 1 ∧
      ((s.jump_to x).path).getLast? = some x) ∧
    (x ∉ s.path →
      (s.jump_to x).path = s.path ++ [x] ∧
      (s.jump_to x).path.length = s.path.length + 1 ∧
      ((s.jump_to x).path).getLast? = some x) := by
  constructor
  · intro h
    exact ⟨jump_to_mem_path s x h, jump_to_mem_length s x h,
      jump_to_getLast s x⟩
  · intro h
    refine ⟨jump_to_not_mem_path s x h, ?_, jump_to_getLast s x⟩
    rw [jump_to_not_mem_path s x h]
    simp

/-- Witness for C1 at the spec's own examples:
`jump_to(B)` on `[A,B,C,D]` gives `[A,B]`; `jump_to(E)` on `[A,B]`
gives `[A,B,E]`. -/
theorem jump_to_truncate_or_extend_witness :
    (NavState.jump_to ⟨["A", "B", "C", "D"]⟩ "B").path = ["A", "B"] ∧
    (NavState.jump_to ⟨["A", "B"]⟩ "E").path = ["A", "B", "E"] := by
  constructor
  · have h := (jump_to_truncate_or_extend ⟨["A", "B", "C", "D"]⟩ "B").1
      (by decide)
    rw [h.1]
    decide
  · have h := (jump_to_truncate_or_extend ⟨["A", "B"]⟩ "E").2 (by decide)
    rw [h.1]
    decide

/-- **C7.** `pop()` on a one-element path returns none and leaves the
path unchanged; on a longer path it removes and returns the last
element, leaving the preceding elements unchanged. -/
theorem pop_root_guard (s : NavState) :
    (s.path.length = 1 → s.pop = (none, s)) ∧
    (∀ l a, s.path = l ++ [a] → l ≠ [] → s.pop = (some a, ⟨l⟩)) := by
  constructor
  · intro h
    simp [NavState.pop, h]
  · intro l a hpath hl
    have hlen : 1 < (l ++ [a]).length := by
      rw [List.length_append, List.length_singleton]
      have : 0 < l.length := List.length_pos.mpr hl
      omega
    simp only [NavState.pop, hpath, if_pos hlen]
    rw [List.getLast?_concat, List.dropLast_concat]

/-- Witness for C7: `pop` on `[A]` is a no-op returning none, `pop` on
`[A,B]` returns `B` leaving `[A]`. -/
theorem pop_root_guard_witness :
    NavState.pop ⟨["A"]⟩ = (none, ⟨["A"]⟩) ∧
    NavState.pop ⟨["A", "B"]⟩ = (some "B", ⟨["A"]⟩) :=
  ⟨(pop_root_guard ⟨["A"]⟩).1 (by decide),
    (pop_root_guard ⟨["A", "B"]⟩).2 ["A"] "B" (by decide) (by decide)⟩

theorem jump_to_mem_result (s : NavState) (x : String) :
    x ∈ (s.jump_to x).path := by
  by_cases h : x ∈ s.path
  · rw [jump_to_mem_path s x h, take_indexOf_decomp s.path x h]
    exact List.mem_append_right _ (List.mem_singleton.mpr rfl)
  · rw [jump_to_not_mem_path s x h]
    exact List.mem_append_right _ (List.mem_singleton.mpr rfl)

/-- **C10.** `jump_to` is idempotent: a second `jump_to(x)` leaves the
path that the first one produced unchanged, and after `jump_to(x)` the
last element of the path is `x`. -/
theorem jump_to_idempotent (s : NavState) (x : String) :
    ((s.jump_to x).jump_to x).path = (s.jump_to x).path ∧
    ((s.jump_to x).path).getLast? = some x := by
  refine ⟨?_, jump_to_getLast s x⟩
  have hmem : x ∈ (s.jump_to x).path := jump_to_mem_result s x
  rw [jump_to_mem_path (s.jump_to x) x hmem]
  by_cases h : x ∈ s.path
  · have hpath : (s.jump_to x).path = s.path.take (s.path.indexOf x + 1) :=
      jump_to_mem_path s x h
    have hidx : ((s.jump_to x).path).indexOf x = s.path.indexOf x := by
      rw [hpath]
      exact indexOf_take_self s.path x _ (by rw [← hpath]; exact hmem)
    rw [hidx, hpath, List.take_take]
    simp
  · have hpath : (s.jump_to x).path = s.path ++ [x] :=
      jump_to_not_mem_path s x h
    have hidx : ((s.jump_to x).path).indexOf x = s.path.length := by
      rw [hpath, List.indexOf_append_of_not_mem h]
      simp [List.indexOf_cons_self]
    rw [hidx, hpath]
    apply List.take_of_length_le
    simp

/-! ### Nodup preservation -/

theorem jump_to_nodup_step (s : NavState) (x : String)
    (h : s.path.Nodup) : ((s.jump_to x).path).Nodup := by
  by_cases hx : x ∈ s.path
  · rw [jump_to_mem_path s x hx]
    exact h.sublist (List.take_sublist _ _)
  · rw [jump_to_not_mem_path s x hx]
    rw [List.nodup_append]
    exact ⟨h, List.nodup_singleton x, by simpa using hx⟩

theorem jumpSeq_nodup_aux :
    ∀ (js : List String) (s : NavState), s.path.Nodup →
      ((jumpSeq js s).path).Nodup := by
  intro js
  induction js with
  | nil => intro s h; exact h
  | cons j t ih =>
      intro s h
      exact ih (s.jump_to j) (jump_to_nodup_step s j h)

/-- **C2.** Starting from any duplicate-free path, after every prefix
of any finite sequence of `jump_to` calls the path is still
duplicate-free. -/
theorem jump_to_sequences_nodup (s : NavState) (js : List String)
    (h : s.path.Nodup) :
    ∀ k, ((jumpSeq (js.take k) s).path).Nodup := by
  intro k
  exact jumpSeq_nodup_aux (js.take k) s h

/-- Witness for C2: the concrete call sequence `core, hold, core` from
the initial state keeps the path duplicate-free at every step. -/
theorem jump_to_sequences_nodup_witness :
    ((jumpSeq (List.take 3 ["core", "hold", "core"]) NavState.init).path).Nodup :=
  jump_to_sequences_nodup NavState.init ["core", "hold", "core"] (by decide) 3

/-! ### Non-emptiness and the four-operation invariants -/

theorem push_ne_nil (s : NavState) (x : String) (h : s.path ≠ []) :
    (s.push x).path ≠ [] := by
  by_cases hx : x ∈ s.path
  · simpa [NavState.push, hx] using h
  · simp [NavState.push, hx]

theorem pop_ne_nil (s : NavState) (h : s.path ≠ []) :
    ((s.pop).2).path ≠ [] := by
  by_cases hlen : 1 < s.path.length
  · simp only [NavState.pop, if_pos hlen]
    have : s.path.dropLast.length = s.path.length - 1 := by
      simp [List.length_dropLast]
    intro hnil
    rw [hnil] at this
    simp at this
    omega
  · simpa [NavState.pop, hlen] using h

theorem jump_to_ne_nil (s : NavState) (x : String) :
    (s.jump_to x).path ≠ [] := by
  intro hnil
  have := jump_to_getLast s x
  rw [hnil] at this
  simp at this

theorem op_preserves_ne_nil (o : NavOp) (s : NavState) (h : s.path ≠ []) :
    (o.apply s).path ≠ [] := by
  cases o with
  | pushOp m => exact push_ne_nil s m h
  | popOp => exact pop_ne_nil s h
  | jumpOp m => exact jump_to_ne_nil s m
  | resetOp => simp [NavOp.apply, NavState.reset]

theorem runOps_ne_nil :
    ∀ (ops : List NavOp) (s : NavState), s.path ≠ [] →
      (runOps ops s).path ≠ [] := by
  intro ops
  induction ops with
  | nil => intro s h; exact h
  | cons o t ih =>
      intro s h
      exact ih (o.apply s) (op_preserves_ne_nil o s h)

/-- **C8.** The path is never empty: each of the four operations sends
a non-empty path to a non-empty path, and every finite interleaving of
them starting from the initial state `["cascade_lattice"]` leaves the
path non-empty. -/
theorem path_never_empty :
    (∀ (s : NavState) (x : String), s.path ≠ [] →
      (s.push x).path ≠ [] ∧ ((s.pop).2).path ≠ [] ∧
      (s.jump_to x).path ≠ [] ∧ (s.reset).path ≠ []) ∧
    (∀ ops : List NavOp, (runOps ops NavState.init).path ≠ []) := by
  constructor
  · intro s x h
    exact ⟨push_ne_nil s x h, pop_ne_nil s h, jump_to_ne_nil s x,
      by simp [NavState.reset]⟩
  · intro ops
    exact runOps_ne_nil ops NavState.init (by decide)

/-- Witness for C8 at the one-element path `[A]`: all four operations
keep it non-empty. -/
theorem path_never_empty_witness :
    (NavState.push ⟨["A"]⟩ "B").path ≠ [] ∧
    ((NavState.pop ⟨["A"]⟩).2).path ≠ [] ∧
    (NavState.jump_to ⟨["A"]⟩ "B").path ≠ [] ∧
    (NavState.reset ⟨["A"]⟩).path ≠ [] :=
  path_never_empty.1 ⟨["A"]⟩ "B" (by decide)

theorem push_nodup_step (s : NavState) (x : String)
    (h : s.path.Nodup) : ((s.push x).path).Nodup := by
  by_cases hx : x ∈ s.path
  · simpa [NavState.push, hx] using h
  · simp only [NavState.push, if_neg hx]
    rw [List.nodup_append]
    exact ⟨h, List.nodup_singleton x, by simpa using hx⟩

theorem pop_nodup_step (s : NavState) (h : s.path.Nodup) :
    (((s.pop).2).path).Nodup := by
  by_cases hlen : 1 < s.path.length
  · simp only [NavState.pop, if_pos hlen]
    exact h.sublist (List.dropLast_sublist _)
  · simpa [NavState.pop, hlen] using h

theorem op_preserves_nodup (o : NavOp) (s : NavState)
    (h : s.path.Nodup) : ((o.apply s).path).Nodup := by
  cases o with
  | pushOp m => exact push_nodup_step s m h
  | popOp => exact pop_nodup_step s h
  | jumpOp m => exact jump_to_nodup_step s m h
  | resetOp => simp [NavOp.apply, NavState.reset]

theorem runOps_nodup :
    ∀ (ops : List NavOp) (s : NavState), s.path.Nodup →
      ((runOps ops s).path).Nodup := by
  intro ops
  induction ops with
  | nil => intro s h; exact h
  | cons o t ih =>
      intro s h
      exact ih (o.apply s) (op_preserves_nodup o s h)

/-- **C9.** The duplicate-free invariant holds under all four
operations: every finite interleaving of `push`, `pop`, `jump_to` and
`reset` starting from the initial state `["cascade_lattice"]` leaves
the path free of duplicate ids. -/
theorem all_ops_nodup (ops : List NavOp) :
    ((runOps ops NavState.init).path).Nodup :=
  runOps_nodup ops NavState.init (by decide)

/-! ### Related-panel lemmas -/

theorem addIf_eq (g : GraphStore) (sl : Slot) (c : String)
    (acc : List (Slot × String)) :
    addIf g sl c acc = acc ∨
    (addIf g sl c acc = acc ++ [(sl, c)] ∧ c ∉ acc.map Prod.snd ∧
      (g c).isSome) := by
  unfold addIf
  by_cases hc : c ∈ acc.map Prod.snd
  · left
    simp [hc]
  · cases hg : g c with
    | none => left; simp [hc, hg]
    | some n => right; exact ⟨by simp [hc, hg], hc, by simp [hg]⟩

theorem addIf_nodup (g : GraphStore) (sl : Slot) (c : String)
    (acc : List (Slot × String)) (h : (acc.map Prod.snd).Nodup) :
    ((addIf g sl c acc).map Prod.snd).Nodup := by
  rcases addIf_eq g sl c acc with he | ⟨he, hc, _⟩
  · rw [he]; exact h
  · rw [he, List.map_append, List.nodup_append]
    refine ⟨h, by simp, ?_⟩
    simpa using hc

theorem addIf_mem (g : GraphStore) (sl : Slot) (d : String)
    (acc : List (Slot × String)) (c : String) :
    (c ∈ (addIf g sl d acc).map Prod.snd ↔
      c ∈ acc.map Prod.snd ∨ (c = d ∧ (g d).isSome)) := by
  unfold addIf
  by_cases hd : d ∈ acc.map Prod.snd
  · simp only [if_pos hd]
    constructor
    · intro h; exact Or.inl h
    · rintro (h | ⟨rfl, _⟩)
      · exact h
      · exact hd
  · simp only [if_neg hd]
    cases hg : g d with
    | none =>
        constructor
        · intro h; exact Or.inl h
        · rintro (h | ⟨rfl, hs⟩)
          · exact h
          · simp at hs
    | some n =>
        rw [List.map_append]
        constructor
        · intro h
          rcases List.mem_append.mp h with h | h
          · exact Or.inl h
          · simp at h
            exact Or.inr ⟨h, rfl⟩
        · rintro (h | ⟨rfl, _⟩)
          · exact List.mem_append_left _ h
          · refine List.mem_append_right _ ?_
            simp

theorem foldAdd_decomp (g : GraphStore) (sl : Slot) :
    ∀ (l : List String) (acc : List (Slot × String)),
      ∃ t, l.foldl (fun a c => addIf g sl c a) acc = acc ++ t ∧
        (∀ x ∈ t, x.1 = sl) ∧ (t.map Prod.snd).Sublist l := by
  intro l
  induction l with
  | nil =>
      intro acc
      exact ⟨[], by simp, by simp, by simp⟩
  | cons c t ih =>
      intro acc
      rcases ih (addIf g sl c acc) with ⟨u, hu, hslot, hsub⟩
      rcases addIf_eq g sl c acc with he | ⟨he, _, _⟩
      · refine ⟨u, ?_, hslot, hsub.cons c⟩
        simp only [List.foldl_cons]
        rw [he]
        rw [he] at hu
        exact hu
      · refine ⟨(sl, c) :: u, ?_, ?_, ?_⟩
        · simp only [List.foldl_cons]
          rw [he] at hu
          rw [he, hu, List.append_assoc]
          simp
        · intro x hx
          rcases List.mem_cons.mp hx with rfl | hx
          · rfl
          · exact hslot x hx
        · simpa using hsub.cons₂ c

theorem foldAdd_nodup (g : GraphStore) (sl : Slot) :
    ∀ (l : List String) (acc : List (Slot × String)),
      (acc.map Prod.snd).Nodup →
      (((l.foldl (fun a c => addIf g sl c a) acc).map Prod.snd)).Nodup := by
  intro l
  induction l with
  | nil => intro acc h; exact h
  | cons c t ih =>
      intro acc h
      exact ih (addIf g sl c acc) (addIf_nodup g sl c acc h)

theorem foldAdd_mem (g : GraphStore) (sl : Slot) :
    ∀ (l : List String) (acc : List (Slot × String)) (c : String),
      (c ∈ ((l.foldl (fun a d => addIf g sl d a) acc).map Prod.snd) ↔
        c ∈ acc.map Prod.snd ∨ (c ∈ l ∧ (g c).isSome)) := by
  intro l
  induction l with
  | nil =>
      intro acc c
      simp
  | cons d t ih =>
      intro acc c
      simp only [List.foldl_cons]
      rw [ih (addIf g sl d acc) c, addIf_mem g sl d acc c]
      constructor
      · rintro ((h | ⟨rfl, hs⟩) | ⟨hmem, hs⟩)
        · exact Or.inl h
        · exact Or.inr ⟨List.mem_cons_self _ _, hs⟩
        · exact Or.inr ⟨List.mem_cons_of_mem _ hmem, hs⟩
      · rintro (h | ⟨hmem, hs⟩)
        · exact Or.inl (Or.inl h)
        · rcases List.mem_cons.mp hmem with rfl | hmem
          · exact Or.inl (Or.inr ⟨rfl, hs⟩)
          · exact Or.inr ⟨hmem, hs⟩

theorem relatedList_some (g : GraphStore) (key : String) (node : ModuleNode)
    (hk : g key = some node) : relatedList g key = rebuildFor g node := by
  simp [relatedList, hk]

theorem parentStage_cases (g : GraphStore) (node : ModuleNode) :
    parentStage g node = [] ∨
    ∃ p, node.parent = some p ∧
      parentStage g node = [(Slot.parentSlot, p)] := by
  unfold parentStage
  cases hp : node.parent with
  | none => left; rfl
  | some p =>
      by_cases he : p = ""
      · left; simp [he]
      · rcases addIf_eq g Slot.parentSlot p [] with h | ⟨h, _, _⟩
        · left; simp [he, h]
        · right; exact ⟨p, rfl, by simp [he, h]⟩

theorem parentStage_slot (g : GraphStore) (node : ModuleNode) :
    ∀ x ∈ parentStage g node, x.1 = Slot.parentSlot := by
  rcases parentStage_cases g node with h | ⟨p, _, h⟩ <;> rw [h]
  · intro x hx; simp at hx
  · intro x hx
    rcases List.mem_singleton.mp hx with rfl
    rfl

theorem parentStage_nodup (g : GraphStore) (node : ModuleNode) :
    ((parentStage g node).map Prod.snd).Nodup := by
  rcases parentStage_cases g node with h | ⟨p, _, h⟩ <;> rw [h] <;> simp

theorem parentStage_pos (g : GraphStore) (node : ModuleNode) (p : String)
    (hp : node.parent = some p) (hne : p ≠ "") (hs : (g p).isSome) :
    parentStage g node = [(Slot.parentSlot, p)] := by
  unfold parentStage
  rw [hp]
  show (if p = "" then [] else addIf g Slot.parentSlot p []) =
    [(Slot.parentSlot, p)]
  rw [if_neg hne]
  unfold addIf
  cases hg : g p with
  | none => rw [hg] at hs; simp at hs
  | some n => simp

theorem parentStage_mem (g : GraphStore) (node : ModuleNode) (c : String) :
    c ∈ (parentStage g node).map Prod.snd ↔
      node.parent = some c ∧ c ≠ "" ∧ (g c).isSome := by
  unfold parentStage
  cases hp : node.parent with
  | none => simp
  | some p =>
      by_cases he : p = ""
      · subst he
        simp only [if_pos rfl]
        constructor
        · intro h; simp at h
        · rintro ⟨hc, hne, _⟩
          cases hc
          exact absurd rfl hne
      · simp only [if_neg he]
        rw [addIf_mem g Slot.parentSlot p [] c]
        constructor
        · rintro (h | ⟨rfl, hs⟩)
          · simp at h
          · exact ⟨rfl, he, hs⟩
        · rintro ⟨hc, _, hs⟩
          cases hc
          exact Or.inr ⟨rfl, hs⟩

theorem rebuildFor_decomp (g : GraphStore) (node : ModuleNode) :
    ∃ t2 t3 t4,
      rebuildFor g node = parentStage g node ++ t2 ++ t3 ++ t4 ∧
      (∀ x ∈ t2, x.1 = Slot.childSlot) ∧
      (∀ x ∈ t3, x.1 = Slot.importsFromSlot) ∧
      (∀ x ∈ t4, x.1 = Slot.importedBySlot) ∧
      (t2.map Prod.snd).Sublist node.children ∧
      (t3.map Prod.snd).Sublist (node.imports_from.take 3) ∧
      (t4.map Prod.snd).Sublist (node.imported_by.take 3) := by
  rcases foldAdd_decomp g Slot.childSlot node.children (parentStage g node)
    with ⟨t2, h2, hs2, hb2⟩
  rcases foldAdd_decomp g Slot.importsFromSlot (node.imports_from.take 3)
      (node.children.foldl (fun acc c => addIf g Slot.childSlot c acc)
        (parentStage g node)) with ⟨t3, h3, hs3, hb3⟩
  rcases foldAdd_decomp g Slot.importedBySlot (node.imported_by.take 3)
      ((node.imports_from.take 3).foldl
        (fun acc c => addIf g Slot.importsFromSlot c acc)
        (node.children.foldl (fun acc c => addIf g Slot.childSlot c acc)
          (parentStage g node))) with ⟨t4, h4, hs4, hb4⟩
  refine ⟨t2, t3, t4, ?_, hs2, hs3, hs4, hb2, hb3, hb4⟩
  simp only [rebuildFor]
  rw [h4, h3, h2]

theorem rebuildFor_nodup (g : GraphStore) (node : ModuleNode) :
    ((rebuildFor g node).map Prod.snd).Nodup := by
  simp only [rebuildFor]
  apply foldAdd_nodup
  apply foldAdd_nodup
  apply foldAdd_nodup
  exact parentStage_nodup g node

theorem rebuildFor_mem (g : GraphStore) (node : ModuleNode) (c : String) :
    c ∈ (rebuildFor g node).map Prod.snd ↔
      (g c).isSome ∧
        ((node.parent = some c ∧ c ≠ "") ∨ c ∈ node.children ∨
          c ∈ node.imports_from.take 3 ∨ c ∈ node.imported_by.take 3) := by
  simp only [rebuildFor]
  rw [foldAdd_mem, foldAdd_mem, foldAdd_mem, parentStage_mem]
  constructor
  · rintro (((⟨hp, hne, hs⟩ | ⟨hmem, hs⟩) | ⟨hmem, hs⟩) | ⟨hmem, hs⟩)
    · exact ⟨hs, Or.inl ⟨hp, hne⟩⟩
    · exact ⟨hs, Or.inr (Or.inl hmem)⟩
    · exact ⟨hs, Or.inr (Or.inr (Or.inl hmem))⟩
    · exact ⟨hs, Or.inr (Or.inr (Or.inr hmem))⟩
  · rintro ⟨hs, (⟨hp, hne⟩ | hmem | hmem | hmem)⟩
    · exact Or.inl (Or.inl (Or.inl ⟨hp, hne, hs⟩))
    · exact Or.inl (Or.inl (Or.inr ⟨hmem, hs⟩))
    · exact Or.inl (Or.inr ⟨hmem, hs⟩)
    · exact Or.inr ⟨hmem, hs⟩

/-- **C3.** The related panel never emits an id twice and respects the
category precedence parent, children, first-three `imports_from`,
first-three `imported_by` (children in stored order, import entries in
stored order); in particular a resolvable parent `P` that also occurs
in `imports_from` appears exactly once, as the leading parent button. -/
theorem related_panel_dedup_precedence (g : GraphStore) (key : String)
    (node : ModuleNode) (hk : g key = some node) :
    ((relatedList g key).map Prod.snd).Nodup ∧
    (∃ t1 t2 t3 t4,
      relatedList g key = t1 ++ t2 ++ t3 ++ t4 ∧
      (∀ x ∈ t1, x.1 = Slot.parentSlot) ∧
      (∀ x ∈ t2, x.1 = Slot.childSlot) ∧
      (∀ x ∈ t3, x.1 = Slot.importsFromSlot) ∧
      (∀ x ∈ t4, x.1 = Slot.importedBySlot) ∧
      (t2.map Prod.snd).Sublist node.children ∧
      (t3.map Prod.snd).Sublist (node.imports_from.take 3) ∧
      (t4.map Prod.snd).Sublist (node.imported_by.take 3)) ∧
    (∀ p, node.parent = some p → p ≠ "" → (g p).isSome →
      p ∈ node.imports_from →
      (relatedList g key).head? = some (Slot.parentSlot, p) ∧
      ((relatedList g key).map Prod.snd).count p = 1) := by
  have hrl := relatedList_some g key node hk
  refine ⟨?_, ?_, ?_⟩
  · rw [hrl]
    exact rebuildFor_nodup g node
  · rcases rebuildFor_decomp g node with
      ⟨t2, t3, t4, hdec, hs2, hs3, hs4, hb2, hb3, hb4⟩
    exact ⟨parentStage g node, t2, t3, t4, by rw [hrl, hdec],
      parentStage_slot g node, hs2, hs3, hs4, hb2, hb3, hb4⟩
  · intro p hp hne hs _hmem
    have hps := parentStage_pos g node p hp hne hs
    rcases rebuildFor_decomp g node with ⟨t2, t3, t4, hdec, _, _, _, _, _, _⟩
    constructor
    · rw [hrl, hdec, hps]
      simp
    · apply List.count_eq_one_of_mem
      · rw [hrl]
        exact rebuildFor_nodup g node
      · rw [hrl, hdec, hps]
        simp

/-- Witness for C3 at the store `gP`: module `m` has parent `P` and
lists `P` again in `imports_from`; the panel leads with the parent
button for `P` and contains `P` exactly once. -/
theorem related_panel_dedup_precedence_witness :
    (relatedList gP "m").head? = some (Slot.parentSlot, "P") ∧
    ((relatedList gP "m").map Prod.snd).count "P" = 1 :=
  (related_panel_dedup_precedence gP "m" mNode (by decide)).2.2 "P"
    (by decide) (by decide) (by decide) (by decide)

/-- **C4 (as stated) is false**: in the store `gC`, node `hub` has
`imports_from = [ghost1, ghost2, ghost3, good]` where only `good`
resolves; the claim promises up to three resolvable `imports_from`
entries, yet the panel is empty, because the code slices
`imports_from[:3]` before checking resolvability, so the three
unresolvable ids consume all the slots. -/
theorem related_panel_slots_counterexample :
    gC "hub" = some hubNode ∧
    (gC "good").isSome = true ∧
    "good" ∈ hubNode.imports_from ∧
    relatedList gC "hub" = [] := by
  refine ⟨by decide, by decide, by decide, by decide⟩

/-- **C4 amended.** An id appears in the related panel iff it resolves
in the Graph Store and qualifies in some category, where only the first
three *stored* entries of `imports_from` (and of `imported_by`) are
ever examined: unresolvable ids never yield an entry, but unresolvable
ids among the first three stored entries do consume the category's
slots, and resolvable entries beyond the third stored position are
never promoted. -/
theorem related_panel_membership (g : GraphStore) (key : String)
    (node : ModuleNode) (hk : g key = some node) (c : String) :
    c ∈ (relatedList g key).map Prod.snd ↔
      (g c).isSome ∧
        ((node.parent = some c ∧ c ≠ "") ∨ c ∈ node.children ∨
          c ∈ node.imports_from.take 3 ∨ c ∈ node.imported_by.take 3) := by
  rw [relatedList_some g key node hk]
  exact rebuildFor_mem g node c

/-- Witness for the amended C4: in `gC`, the resolvable id `good`
(fourth in `hub`'s `imports_from`) is not in the panel. -/
theorem related_panel_membership_witness :
    "good" ∉ (relatedList gC "hub").map Prod.snd := by
  intro h
  have hc := (related_panel_membership gC "hub" hubNode (by decide) "good").mp h
  revert hc
  decide

/-! ### Document panel -/

/-- **C6 (as stated) is false**: with only `d` in the store, updating
the view for the unresolvable id `ghost` leaves the document panel
showing whatever it showed before — two different previous contents
both persist — so no fixed "module not found" placeholder is ever
rendered; the code returns from `_update_view` before touching any
panel. -/
theorem doc_panel_missing_counterexample :
    gD "ghost" = none ∧
    updateDocView gD "ghost" false "previous text" = "previous text" ∧
    updateDocView gD "ghost" true "other text" = "other text" := by
  refine ⟨by decide, by decide, by decide⟩

/-- **C6 amended.** For a current id present in the Graph Store the
document panel shows `doc_scientist` iff scientist (expert) mode is on
and `doc_dummy` otherwise; for a current id absent from the store,
`_update_view` returns early and the document panel keeps its previous
content (no placeholder is rendered, but nothing fails). -/
theorem doc_panel_selection (g : GraphStore) (cur : String)
    (node : ModuleNode) (mode : Bool) (prev : String)
    (h : g cur = some node) :
    updateDocView g cur mode prev =
      (if mode then node.doc_scientist else node.doc_dummy) ∧
    ∀ missing, g missing = none → updateDocView g missing mode prev = prev := by
  constructor
  · simp [updateDocView, h]
  · intro missing hm
    simp [updateDocView, hm]

/-- Witness for the amended C6 at the store `gD`: node `d` shows its
scientist text in scientist mode and its dummy text otherwise. -/
theorem doc_panel_selection_witness :
    updateDocView gD "d" true "prev" = "scientist text" ∧
    updateDocView gD "d" false "prev" = "dummy text" := by
  constructor
  · rw [(doc_panel_selection gD "d" dNode true "prev" (by decide)).1]
    decide
  · rw [(doc_panel_selection gD "d" dNode false "prev" (by decide)).1]
    decide

/-! ### Graph Store construction -/

theorem dictFold_eq (l : List (String × ModuleNode)) :
    ∀ (f : String → Option ModuleNode) (k : String),
      (l.foldl dictInsert f) k =
        match l.reverse.find? (fun p => p.1 == k) with
        | some p => some p.2
        | none => f k := by
  induction l with
  | nil => intro f k; simp
  | cons kv t ih =>
      intro f k
      simp only [List.foldl_cons, List.reverse_cons]
      rw [ih (dictInsert f kv) k, List.find?_append]
      cases hf : t.reverse.find? (fun p => p.1 == k) with
      | some p => simp [hf]
      | none =>
          simp only [hf, Option.none_or]
          cases hkv : (kv.1 == k) with
          | true =>
              have hk : k = kv.1 := (eq_of_beq hkv).symm
              simp [List.find?, hkv, dictInsert, hk]
          | false =>
              have hk : ¬ k = kv.1 := by
                intro h
                rw [h] at hkv
                simp at hkv
              simp [List.find?, hkv, dictInsert, hk]

/-- **C5 (as stated) is false**: `badDef` lists the id `dup` twice,
makes `dup` and `cyc` each other's parent and child (a containment
cycle), and contains no `cascade_lattice` root; yet the dict-literal
construction completes and yields a working store, silently binding
`dup` to its last definition.  No construction-time validation or
failure path exists in the code. -/
theorem graph_construction_counterexample :
    ¬ (badDef.map Prod.fst).Nodup ∧
    ("cyc" ∈ dupNode1.children ∧ "dup" ∈ cycNode.children ∧
      dupNode1.parent = some "cyc" ∧ cycNode.parent = some "dup") ∧
    dictOfList badDef "cascade_lattice" = none ∧
    dictOfList badDef "dup" = some dupNode2 ∧
    dictOfList badDef "cyc" = some cycNode := by
  refine ⟨by decide, by decide, by decide, by decide, by decide⟩

/-- **C5 amended.** Construction of the Graph Store never fails: the
dict literal is a total left-to-right insertion, so every definition —
cyclic, duplicated or rootless — yields a store; a duplicated id
silently resolves to its last occurrence (lookup equals `find?` over
the reversed entry list).  Malformedness is never a construction-time
condition; dangling ids merely make later `get` calls return absent. -/
theorem graph_construction_total_last_wins
    (l : List (String × ModuleNode)) (k : String) :
    dictOfList l k = (l.reverse.find? (fun p => p.1 == k)).map Prod.snd := by
  unfold dictOfList
  rw [dictFold_eq l (fun _ => none) k]
  cases hf : l.reverse.find? (fun p => p.1 == k) with
  | some p => simp
  | none => simp

end Cascade
